import Mathlib

/-!
Shallow embedding of the energy-efficiency semantic-search repository
(io_utils/pre_processor.py, generation_utils/llm_client.py,
generation_utils/schema.py, generation_utils/generator.py) in Lean 4.

Python strings are modelled as Lean `String` / `List Char`; machine-level
details of the third-party libraries (tiktoken, nltk, BeautifulSoup, PyMuPDF,
sentence-transformers, chromadb) are modelled as explicit function
parameters or abstract data, as documented on each definition.  `hashlib.md5`
is embedded concretely (a full MD5 implementation over UTF-8 bytes).
-/

namespace EnergySearch

/-! ## Character and string helpers shared by the embedding -/

/-- Python `str.lower()` restricted to ASCII case mapping. -/
def toLowerStr (s : String) : String := String.mk (s.data.map Char.toLower)

/-- Python `str.upper()` restricted to ASCII case mapping. -/
def toUpperStr (s : String) : String := String.mk (s.data.map Char.toUpper)

/-- Python `needle in hay` for strings: `needle` occurs as a contiguous
substring of `hay` (character lists). -/
def containsSub (hay needle : List Char) : Bool :=
  if needle.isPrefixOf hay then true
  else
    match hay with
    | [] => false
    | _ :: t => containsSub t needle

/-- The whitespace characters stripped by Python `str.strip()` (ASCII part). -/
def isPyWs (c : Char) : Bool :=
  c == ' ' || c == '\t' || c == '\n' || c == '\r' || c == '\x0b' || c == '\x0c'

/-- Python `str.strip()` on character lists: drop leading and trailing
whitespace. -/
def stripL (cs : List Char) : List Char :=
  (((cs.dropWhile isPyWs).reverse).dropWhile isPyWs).reverse

/-- Python `" ".join(parts)`. -/
def joinSpace : List String → String
  | [] => ""
  | [s] => s
  | s :: rest => s ++ " " ++ joinSpace rest

/-- Python `"\n".join(parts)` on character lists. -/
def joinNl : List (List Char) → List Char
  | [] => []
  | [l] => l
  | l :: rest => l ++ '\n' :: joinNl rest

/-- Python `text.split("\n")` on character lists (keeps empty fields, and
yields `[[]]` on the empty string, like Python `"".split("\n") == [""]`). -/
def splitNl : List Char → List (List Char)
  | [] => [[]]
  | c :: cs =>
    let r := splitNl cs
    if c == '\n' then [] :: r
    else
      match r with
      | [] => [[c]]
      | g :: gs => (c :: g) :: gs

/-! ## `clean_text` (pre_processor.py lines 51-55)

The two regex substitutions `re.sub(r'\n{2,}', '\n', ·)` and
`re.sub(r'[ \t]+', ' ', ·)` both replace every maximal run of matching
characters by a single replacement character (a run of exactly one newline is
left unchanged by the first regex, which is the same as replacing it by one
newline).  `squash p r` performs exactly that replacement; the `Bool` flag
records whether the scanner is inside a run that has already emitted its
replacement character. -/

/-- Replace every maximal run of characters satisfying `p` by the single
character `r`.  The flag is `true` while inside a run whose replacement has
already been emitted. -/
def squash (p : Char → Bool) (r : Char) : Bool → List Char → List Char
  | _, [] => []
  | inRun, c :: cs =>
    if p c then
      if inRun then squash p r true cs
      else r :: squash p r true cs
    else c :: squash p r false cs

/-- Character class of the regex `\n{2,}` (the characters forming its runs). -/
def isNl (c : Char) : Bool := c == '\n'

/-- Character class of the regex `[ \t]+`. -/
def isSpTab (c : Char) : Bool := c == ' ' || c == '\t'

/-- `clean_text` on character lists: collapse newline runs, collapse
space/tab runs to one space, delete form feeds, strip. -/
def cleanL (cs : List Char) : List Char :=
  stripL (((squash isSpTab ' ' false (squash isNl '\n' false cs)).filter
    (fun c => !(c == '\x0c'))))

/-- `clean_text(text)` from pre_processor.py: `re.sub(r'\n{2,}', '\n', ·)`,
then `re.sub(r'[ \t]+', ' ', ·)`, then `re.sub(r'\f', '', ·)`, then
`str.strip()`. -/
def clean_text (s : String) : String := String.mk (cleanL s.data)

/-! ## `filter_noise` (pre_processor.py lines 58-68) -/

/-- The regex `^\d+[\.\)]`: one or more ASCII digits followed by a period or
closing parenthesis, anchored at the start of the line. -/
def startsNumMark (cs : List Char) : Bool :=
  let ds := cs.takeWhile Char.isDigit
  (!ds.isEmpty) &&
    (match cs.drop ds.length with
     | c :: _ => c == '.' || c == ')'
     | [] => false)

/-- Python `str.isupper()` (ASCII approximation): at least one letter, and
no lowercase letter. -/
def pyIsUpper (cs : List Char) : Bool :=
  cs.any Char.isAlpha && cs.all (fun c => !c.isLower)

/-- The per-line keep test of `filter_noise`: a line is dropped when its
stripped form is empty, starts with a numeric list marker, is a short
all-uppercase heading, or mentions REFERENCES or TABLE (uppercased). -/
def keepLine (ln : List Char) : Bool :=
  let s := stripL ln
  if s.isEmpty then false
  else if startsNumMark s then false
  else if s.length < 30 && pyIsUpper s then false
  else if containsSub (s.map Char.toUpper) "REFERENCES".data ||
          containsSub (s.map Char.toUpper) "TABLE".data then false
  else true

/-- `filter_noise(text)` from pre_processor.py: split into lines, keep the
original (unstripped) lines passing `keepLine`, rejoin with newlines. -/
def filter_noise (s : String) : String :=
  String.mk (joinNl ((splitNl s.data).filter keepLine))

/-! ## MD5 (hashlib.md5, as used by `_deduplicate_chunks`)

A concrete MD5 over the UTF-8 bytes of a string, producing the lowercase hex
digest exactly as Python `hashlib.md5(c.encode("utf-8")).hexdigest()`.
32-bit machine words are `Nat` values kept below `2 ^ 32`. -/

/-- Reduce modulo `2 ^ 32`. -/
def m32 (x : Nat) : Nat := x % 4294967296

/-- Bitwise complement of a 32-bit word (input assumed `< 2 ^ 32`). -/
def not32 (x : Nat) : Nat := 4294967295 - x

/-- Combine two naturals bit by bit with the boolean operation `f`, over
`fuel` low bits. -/
def bitop : (Bool → Bool → Bool) → Nat → Nat → Nat → Nat
  | _, 0, _, _ => 0
  | f, n + 1, x, y =>
    (if f (x % 2 == 1) (y % 2 == 1) then 1 else 0) + 2 * bitop f n (x / 2) (y / 2)

/-- 32-bit bitwise and. -/
def and32 (x y : Nat) : Nat := bitop (fun a b => a && b) 32 x y

/-- 32-bit bitwise or. -/
def or32 (x y : Nat) : Nat := bitop (fun a b => a || b) 32 x y

/-- 32-bit bitwise xor. -/
def xor32 (x y : Nat) : Nat := bitop (fun a b => a != b) 32 x y

/-- 32-bit left rotation (input assumed `< 2 ^ 32`). -/
def rotl32 (x s : Nat) : Nat := (x * 2 ^ s) % 4294967296 + x / 2 ^ (32 - s)

/-- UTF-8 encoding of one character, as a list of byte values. -/
def utf8Bytes (c : Char) : List Nat :=
  let n := c.toNat
  if n < 128 then [n]
  else if n < 2048 then [192 + n / 64, 128 + n % 64]
  else if n < 65536 then [224 + n / 4096, 128 + (n / 64) % 64, 128 + n % 64]
  else [240 + n / 262144, 128 + (n / 4096) % 64, 128 + (n / 64) % 64, 128 + n % 64]

/-- Python `s.encode("utf-8")` as a list of byte values. -/
def strBytes (s : String) : List Nat := s.data.flatMap utf8Bytes

/-- The MD5 sine-derived round constants. -/
def md5K : List Nat :=
  [0xd76aa478, 0xe8c7b756, 0x242070db, 0xc1bdceee, 0xf57c0faf, 0x4787c62a,
   0xa8304613, 0xfd469501, 0x698098d8, 0x8b44f7af, 0xffff5bb1, 0x895cd7be,
   0x6b901122, 0xfd987193, 0xa679438e, 0x49b40821, 0xf61e2562, 0xc040b340,
   0x265e5a51, 0xe9b6c7aa, 0xd62f105d, 0x02441453, 0xd8a1e681, 0xe7d3fbc8,
   0x21e1cde6, 0xc33707d6, 0xf4d50d87, 0x455a14ed, 0xa9e3e905, 0xfcefa3f8,
   0x676f02d9, 0x8d2a4c8a, 0xfffa3942, 0x8771f681, 0x6d9d6122, 0xfde5380c,
   0xa4beea44, 0x4bdecfa9, 0xf6bb4b60, 0xbebfbc70, 0x289b7ec6, 0xeaa127fa,
   0xd4ef3085, 0x04881d05, 0xd9d4d039, 0xe6db99e5, 0x1fa27cf8, 0xc4ac5665,
   0xf4292244, 0x432aff97, 0xab9423a7, 0xfc93a039, 0x655b59c3, 0x8f0ccc92,
   0xffeff47d, 0x85845dd1, 0x6fa87e4f, 0xfe2ce6e0, 0xa3014314, 0x4e0811a1,
   0xf7537e82, 0xbd3af235, 0x2ad7d2bb, 0xeb86d391]

/-- The MD5 per-round left-rotation amounts. -/
def md5S : List Nat :=
  [7, 12, 17, 22, 7, 12, 17, 22, 7, 12, 17, 22, 7, 12, 17, 22,
   5, 9, 14, 20, 5, 9, 14, 20, 5, 9, 14, 20, 5, 9, 14, 20,
   4, 11, 16, 23, 4, 11, 16, 23, 4, 11, 16, 23, 4, 11, 16, 23,
   6, 10, 15, 21, 6, 10, 15, 21, 6, 10, 15, 21, 6, 10, 15, 21]

/-- The MD5 round mixing function (round index `i`, words `b c d`). -/
def md5F (i b c d : Nat) : Nat :=
  if i < 16 then or32 (and32 b c) (and32 (not32 b) d)
  else if i < 32 then or32 (and32 d b) (and32 (not32 d) c)
  else if i < 48 then xor32 b (xor32 c d)
  else xor32 c (or32 b (not32 d))

/-- The MD5 message-word index schedule. -/
def md5G (i : Nat) : Nat :=
  if i < 16 then i
  else if i < 32 then (5 * i + 1) % 16
  else if i < 48 then (3 * i + 5) % 16
  else (7 * i) % 16

/-- One MD5 round: rotate the state quadruple. -/
def md5Round (msg : List Nat) (st : Nat × Nat × Nat × Nat) (i : Nat) :
    Nat × Nat × Nat × Nat :=
  let (a, b, c, d) := st
  let f := m32 (md5F i b c d + a + md5K.getD i 0 + msg.getD (md5G i) 0)
  (d, m32 (b + rotl32 f (md5S.getD i 0)), b, c)

/-- Group a 64-byte block into 16 little-endian 32-bit words. -/
def toWords : List Nat → List Nat
  | b0 :: b1 :: b2 :: b3 :: rest =>
    (b0 + 256 * b1 + 65536 * b2 + 16777216 * b3) :: toWords rest
  | _ => []

/-- Process one 64-byte block. -/
def md5Block (st : Nat × Nat × Nat × Nat) (block : List Nat) :
    Nat × Nat × Nat × Nat :=
  let msg := toWords block
  let (a0, b0, c0, d0) := st
  let (a, b, c, d) := (List.range 64).foldl (md5Round msg) st
  (m32 (a0 + a), m32 (b0 + b), m32 (c0 + c), m32 (d0 + d))

/-- Process the (already padded) byte stream block by block; `fuel` bounds the
recursion and any value at least the stream length works. -/
def md5Blocks : Nat → List Nat → Nat × Nat × Nat × Nat → Nat × Nat × Nat × Nat
  | 0, _, st => st
  | _ + 1, [], st => st
  | n + 1, bytes, st => md5Blocks n (bytes.drop 64) (md5Block st (bytes.take 64))

/-- The 8-byte little-endian encoding of the 64-bit message bit length. -/
def lenBytesLE (n : Nat) : List Nat :=
  [n % 256, n / 256 % 256, n / 65536 % 256, n / 16777216 % 256,
   n / 4294967296 % 256, n / 1099511627776 % 256,
   n / 281474976710656 % 256, n / 72057594037927936 % 256]

/-- MD5 padding: append `0x80`, zero bytes to 56 mod 64, then the bit length. -/
def md5Pad (msg : List Nat) : List Nat :=
  msg ++ 128 :: List.replicate ((119 - msg.length % 64) % 64) 0 ++
    lenBytesLE (8 * msg.length % 18446744073709551616)

/-- The 4 little-endian bytes of a 32-bit word. -/
def wordLE (x : Nat) : List Nat :=
  [x % 256, x / 256 % 256, x / 65536 % 256, x / 16777216 % 256]

/-- The final MD5 state over the UTF-8 encoding of `s`. -/
def md5state (s : String) : Nat × Nat × Nat × Nat :=
  let padded := md5Pad (strBytes s)
  md5Blocks padded.length padded (0x67452301, 0xefcdab89, 0x98badcfe, 0x10325476)

/-- The 16 digest bytes of the MD5 of the UTF-8 encoding of `s`. -/
def md5bytes (s : String) : List Nat :=
  wordLE (md5state s).1 ++ wordLE (md5state s).2.1 ++
    wordLE (md5state s).2.2.1 ++ wordLE (md5state s).2.2.2

/-- One lowercase hexadecimal digit. -/
def hexDigit (n : Nat) : Char :=
  if n < 10 then Char.ofNat (48 + n) else Char.ofNat (87 + n)

/-- Two lowercase hex digits of one byte. -/
def byteHex (b : Nat) : List Char := [hexDigit (b / 16), hexDigit (b % 16)]

/-- Python `hashlib.md5(s.encode("utf-8")).hexdigest()`. -/
def md5hex (s : String) : String := String.mk ((md5bytes s).flatMap byteHex)

/-! ## `_deduplicate_chunks` (pre_processor.py lines 71-79)

The Python code keeps a set of MD5 hex digests already seen; the set is
modelled as the list of digests inserted so far (`h not in seen` is list
non-membership, which is equivalent). -/

/-- The loop of `_deduplicate_chunks`, carrying the set `seen` of digests. -/
def dedupGo (seen : List String) : List String → List String
  | [] => []
  | c :: cs =>
    let h := md5hex c
    if h ∈ seen then dedupGo seen cs
    else c :: dedupGo (h :: seen) cs

/-- `_deduplicate_chunks(chunks)` from pre_processor.py: keep the first
occurrence of each MD5 digest, in order. -/
def deduplicate_chunks (chunks : List String) : List String := dedupGo [] chunks

/-- Modelled from the claim wording, for comparison with the code: keep the
first occurrence of each *string* (not digest), in order. -/
def dedupSpecGo (seen : List String) : List String → List String
  | [] => []
  | c :: cs =>
    if c ∈ seen then dedupSpecGo seen cs
    else c :: dedupSpecGo (c :: seen) cs

/-- Reference deduplication by string equality, first-seen order. -/
def dedupSpec (chunks : List String) : List String := dedupSpecGo [] chunks

/-! ## `chunk_text` (pre_processor.py lines 82-102)

The tokenizer `tiktoken.get_encoding(tokenizer_name)` is third-party; it is
modelled by the parameter `encLen : String → Nat`, standing for
`len(enc.encode(sentence))`.  Likewise `nltk.sent_tokenize` is modelled by
the parameter `sentTok : String → List String`.

The Python loop keeps `current : List[str]`, whose first element is the
overlap text seeded from the previous chunk (when one was seeded) and whose
remaining elements are accumulated sentences.  The embedding records that
split explicitly: a `Chunk` is the seeded overlap text (if any) plus the
accumulated sentences; the Python `current` list is `Chunk.current` and the
emitted string is `Chunk.render`. -/

/-- One chunk under construction or emitted: the overlap text seeded from the
previous chunk (the first element of the Python `current` list, when
present), and the sentences appended after it. -/
structure Chunk where
  seed : Option String
  sents : List String
deriving DecidableEq, Repr

/-- The Python `current` list of the chunk. -/
def Chunk.current (c : Chunk) : List String :=
  (match c.seed with
   | none => []
   | some s => [s]) ++ c.sents

/-- The emitted string of the chunk: `" ".join(current)`. -/
def Chunk.render (c : Chunk) : String := joinSpace c.current

/-- Python `full_chunk[-overlap:] if len(full_chunk) > overlap else full_chunk`
(character slicing; note Python `s[-0:]` is all of `s`). -/
def pyTakeLast (k : Nat) (s : String) : String :=
  if s.length > k then
    if k == 0 then s else String.mk (s.data.drop (s.length - k))
  else s

/-- The loop state of `chunk_text`: emitted chunks, the chunk being built,
and `current_tokens`. -/
structure CState where
  chunks : List Chunk
  cur : Chunk
  tokens : Nat
deriving DecidableEq, Repr

/-- One iteration of the `for sent in sentences` loop of `chunk_text`.  An
oversized sentence is skipped (`continue`); when the running total would
overflow, the current chunk is emitted and the continuation chunk is seeded
with the trailing overlap characters; in either case the sentence is then
appended unconditionally (the Python code reseeds and falls through to the
same `current.append(sent)` / `current_tokens += sent_len` lines, inlined
here into each branch). -/
def chunkStep (encLen : String → Nat) (maxTokens overlap : Nat)
    (st : CState) (sent : String) : CState :=
  if encLen sent > maxTokens then st
  else if st.tokens + encLen sent > maxTokens then
    let overlapTxt := pyTakeLast overlap st.cur.render
    { chunks := st.chunks ++ [st.cur],
      cur := { seed := some overlapTxt, sents := [sent] },
      tokens := encLen overlapTxt + encLen sent }
  else
    { st with
      cur := { st.cur with sents := st.cur.sents ++ [sent] },
      tokens := st.tokens + encLen sent }

/-- The chunks produced by the `chunk_text` loop (before rendering and
deduplication), including the trailing `if current: chunks.append(...)`. -/
def chunkRecords (encLen : String → Nat) (sentences : List String)
    (maxTokens overlap : Nat) : List Chunk :=
  let st := sentences.foldl (chunkStep encLen maxTokens overlap)
    { chunks := [], cur := { seed := none, sents := [] }, tokens := 0 }
  if st.cur.current.isEmpty then st.chunks else st.chunks ++ [st.cur]

/-- `chunk_text(text, tokenizer_name, max_tokens, overlap)` from
pre_processor.py, with the tokenizer and the sentence splitter as
parameters. -/
def chunk_text (encLen : String → Nat) (sentTok : String → List String)
    (text : String) (maxTokens overlap : Nat) : List String :=
  deduplicate_chunks ((chunkRecords encLen (sentTok text) maxTokens overlap).map
    Chunk.render)

/-- The token length of the seeded overlap text of a chunk (0 when none was
seeded). -/
def seedTok (encLen : String → Nat) (c : Chunk) : Nat :=
  match c.seed with
  | none => 0
  | some s => encLen s

/-- The total token length of the sentences accumulated into a chunk,
measured per sentence by the tokenizer. -/
def sentsTok (encLen : String → Nat) (c : Chunk) : Nat :=
  (c.sents.map encLen).sum

/-! ## `embed_and_upsert` (pre_processor.py lines 107-119)

The sentence-transformer encoder and the chroma collection are third-party;
what the function passes to them is recorded in an `UpsertCall`. -/

/-- The arguments `embed_and_upsert` hands to the encoder and to
`collection.add`: the prefixed texts given to the encoder, and the ids,
document texts and metadata records given to the collection. -/
structure UpsertCall where
  ids : List String
  embedTexts : List String
  documents : List String
  metadatas : List (String × String)
deriving DecidableEq, Repr

/-- `embed_and_upsert(chunks, collection, embedding_model, model_name,
source_filename)` from pre_processor.py: `none` models the early return on an
empty chunk list (no encoder call, no collection call). -/
def embed_and_upsert (chunks : List String) (model_name source_filename : String) :
    Option UpsertCall :=
  if chunks.isEmpty then none
  else
    let docPre := if containsSub (toLowerStr model_name).data "e5".data
      then "passage: " else ""
    some
      { ids := (List.range chunks.length).map
          (fun i => source_filename ++ "_" ++ toString i),
        embedTexts := chunks.map (fun c => docPre ++ c),
        documents := chunks,
        metadatas := List.replicate chunks.length ("dataset", source_filename) }

/-! ## LLM client (generation_utils/llm_client.py)

API keys, network handles and the provider SDKs are third-party; the
construction-time dispatch on the provider name and the exception structure
of the two generation operations are embedded.  A raised Python exception is
modelled as `Except.error`. -/

/-- The four known provider backends, as validated at construction. -/
inductive Provider
  | gemini
  | openai
  | anthropic
  | groq
deriving DecidableEq, Repr

/-- The failure modes of `LLMClient._init_client`: `ImportError` when the
provider library is unavailable, `ValueError` (the spec's
InvalidConfiguration) for an unknown provider name. -/
inductive InitError
  | missingDependency (msg : String)
  | invalidConfiguration (msg : String)
deriving DecidableEq, Repr

/-- Which provider libraries were importable at process start
(`HAS_GEMINI`, `HAS_OPENAI`, `HAS_ANTHROPIC`, `HAS_GROQ`). -/
structure ProviderLibs where
  hasGemini : Bool
  hasOpenai : Bool
  hasAnthropic : Bool
  hasGroq : Bool
deriving DecidableEq, Repr

/-- `LLMClient._init_client` (llm_client.py lines 46-72): lowercase the
provider name, dispatch to one of the four backends, and raise
`ValueError("Unknown provider: ...")` otherwise.  Key lookup and SDK client
construction are abstracted away (they perform no network call); the result
records which backend was selected. -/
def init_client (provider : String) (libs : ProviderLibs) : Except InitError Provider :=
  let p := toLowerStr provider
  if p == "gemini" then
    if libs.hasGemini then Except.ok Provider.gemini
    else Except.error (InitError.missingDependency "Run `pip install google-genai`")
  else if p == "openai" then
    if libs.hasOpenai then Except.ok Provider.openai
    else Except.error (InitError.missingDependency "Run `pip install openai`")
  else if p == "anthropic" then
    if libs.hasAnthropic then Except.ok Provider.anthropic
    else Except.error (InitError.missingDependency "Run `pip install anthropic`")
  else if p == "groq" then
    if libs.hasGroq then Except.ok Provider.groq
    else Except.error (InitError.missingDependency "Run `pip install groq`")
  else Except.error (InitError.invalidConfiguration ("Unknown provider: " ++ p))

/-- The known provider names, lowercased, in source order. -/
def knownProviders : List String := ["gemini", "openai", "anthropic", "groq"]

/-- One cited-evidence record (generation_utils/schema.py `DatasetSummary`). -/
structure DatasetSummary where
  name : Option String
  summary : Option String
  quote : Option String
deriving DecidableEq, Repr

/-- The structured final answer (generation_utils/schema.py `Response`). -/
structure Response where
  answer : Option String
  name_top : Option String
  supporting_datasets : List DatasetSummary
deriving DecidableEq, Repr

/-- Pydantic `Response.model_construct()`: all optional fields absent, the
list field at its empty default. -/
def Response.model_construct : Response :=
  { answer := none, name_top := none, supporting_datasets := [] }

/-- The body of the `try:` block of `LLMClient.generate_structured`
(llm_client.py lines 114-165): gemini, openai and groq delegate to the
provider call (whose request, response parsing and validation may raise,
modelled by `Except.error`); every other provider — anthropic, after
construction-time validation — raises `NotImplementedError`. -/
def structuredBody {α : Type} (p : Provider) (providerCall : Provider → Except String α) :
    Except String α :=
  match p with
  | Provider.gemini => providerCall Provider.gemini
  | Provider.openai => providerCall Provider.openai
  | Provider.groq => providerCall Provider.groq
  | Provider.anthropic =>
    Except.error "Structured output only supported for Gemini, Groq, and OpenAI."

/-- `LLMClient.generate_structured(prompt, schema_model)`: the whole body is
wrapped in `try ... except Exception`, and on any exception the function
returns `schema_model.model_construct()` (here the parameter
`emptyConstruct`).  The return type `α` (not `Except`) reflects that no
exception escapes. -/
def generate_structured {α : Type} (p : Provider)
    (providerCall : Provider → Except String α) (emptyConstruct : α) : α :=
  match structuredBody p providerCall with
  | Except.ok v => v
  | Except.error _ => emptyConstruct

/-! ## Student generator (generation_utils/generator.py) -/

/-- The prompt built by `StudentGenerator.generate`. -/
def studentPrompt (query context : String) : String :=
  "Context:\n" ++ context ++ "\n\nUser question: " ++ query ++ "\n"

/-- The no-schema path of `StudentGenerator.generate` (generator.py lines
12-23): call `generate_text` on the built prompt (modelled by `genText`,
returning `none` for Python `None`) and substitute the fixed error string
when the response is `None`. -/
def student_generate_text (genText : String → Option String)
    (query context : String) : String :=
  match genText (studentPrompt query context) with
  | none => "Error: The LLM returned no response."
  | some r => r

/-! ## `run_ingestion` (pre_processor.py lines 149-184)

The directory walk (`Path.rglob`), the database and the embedding model are
third-party; `run_ingestion` is modelled over the discovered file list, in
order.  A source file carries its extension-based kind and the outcome of
touching it on disk: `missing` (os.path.exists is false), `unreadable` (the
open/read or extraction raises, e.g. undecodable bytes), or `content t`
(reading succeeds and the extracted text — after BeautifulSoup or PyMuPDF,
which are abstracted — is `t`). -/

/-- The on-disk outcome of one source file. -/
inductive FileData
  | missing
  | unreadable
  | content (text : String)
deriving DecidableEq, Repr

/-- The extension dispatch of `run_ingestion`: `.html`, `.pdf`, or anything
else (skipped). -/
inductive FileKind
  | html
  | pdf
  | other
deriving DecidableEq, Repr

/-- One file found by the recursive walk. -/
structure SrcFile where
  name : String
  kind : FileKind
  data : FileData
deriving DecidableEq, Repr

/-- `extract_text_from_html(path)` (pre_processor.py lines 15-23): returns
`""` when the file does not exist; otherwise opens and reads it with **no**
`try`/`except`, so a read failure (e.g. `UnicodeDecodeError` on non-UTF-8
bytes) propagates to the caller — modelled as `Except.error`. -/
def extract_text_from_html : FileData → Except String String
  | FileData.missing => Except.ok ""
  | FileData.unreadable => Except.error "UnicodeDecodeError"
  | FileData.content t => Except.ok t

/-- `extract_text_from_pdf(path)` (pre_processor.py lines 26-48): returns
`""` when the file does not exist, and catches every extraction exception,
returning `""`. -/
def extract_text_from_pdf : FileData → String
  | FileData.missing => ""
  | FileData.unreadable => ""
  | FileData.content t => t

/-- The per-file text pipeline of `run_ingestion`:
clean → filter → chunk. -/
def pipelineChunks (encLen : String → Nat) (sentTok : String → List String)
    (chunkSize overlap : Nat) (raw : String) : List String :=
  chunk_text encLen sentTok (filter_noise (clean_text raw)) chunkSize overlap

/-- The `for file_path in all_files` loop of `run_ingestion`: unsupported
extensions are skipped (`continue`); `.html` extraction may raise, which
aborts the whole run (`Except.error`); `.pdf` extraction is total.  Each
processed file contributes `(readable_source_name, chunks)`; the subsequent
`embed_and_upsert` is a no-op exactly when `chunks` is empty. -/
def ingestLoop (encLen : String → Nat) (sentTok : String → List String)
    (chunkSize overlap : Nat) : List SrcFile → Except String (List (String × List String))
  | [] => Except.ok []
  | f :: rest =>
    match f.kind with
    | FileKind.other => ingestLoop encLen sentTok chunkSize overlap rest
    | FileKind.html =>
      match extract_text_from_html f.data with
      | Except.error e => Except.error e
      | Except.ok raw =>
        (ingestLoop encLen sentTok chunkSize overlap rest).map
          (fun r => (f.name, pipelineChunks encLen sentTok chunkSize overlap raw) :: r)
    | FileKind.pdf =>
      (ingestLoop encLen sentTok chunkSize overlap rest).map
        (fun r =>
          (f.name,
            pipelineChunks encLen sentTok chunkSize overlap
              (extract_text_from_pdf f.data)) :: r)

/-- `run_ingestion(data_dir, db_path, collection_name, embedding_model_name,
tokenizer_model, chunk_size, chunk_overlap)` over the discovered file list
(collection opening, model loading, logging and the final count are
abstracted; the data-directory existence check happens before any file is
touched and is not part of the per-file failure policy). -/
def run_ingestion (encLen : String → Nat) (sentTok : String → List String)
    (files : List SrcFile) (chunkSize overlap : Nat) :
    Except String (List (String × List String)) :=
  ingestLoop encLen sentTok chunkSize overlap files

/-! ## Auxiliary notions used by the verification -/

/-- The head of the list, when present, does not satisfy `p`. -/
def headNot (p : Char → Bool) : List Char → Bool
  | [] => true
  | c :: _ => !p c

/-- No two adjacent characters of the list both satisfy `p` (no run of
length two or more). -/
def noRun (p : Char → Bool) : List Char → Bool
  | [] => true
  | [_] => true
  | a :: b :: t => (!(p a && p b)) && noRun p (b :: t)

/-- The loop invariant of `chunk_text`: `current_tokens` is the seed tokens
plus the per-sentence tokens of the current chunk; the accumulated sentence
content never exceeds `maxTokens`, in the current chunk and in every emitted
chunk; and every accumulated sentence individually fits in `maxTokens`. -/
def chunkInv (encLen : String → Nat) (maxTokens : Nat) (st : CState) : Prop :=
  st.tokens = seedTok encLen st.cur + sentsTok encLen st.cur ∧
  sentsTok encLen st.cur ≤ maxTokens ∧
  (∀ s ∈ st.cur.sents, encLen s ≤ maxTokens) ∧
  (∀ c ∈ st.chunks,
    sentsTok encLen c ≤ maxTokens ∧ ∀ s ∈ c.sents, encLen s ≤ maxTokens)

/-- Three 250-character sentences, used to exhibit the overlap-seed overflow
of `chunk_text` under a one-token-per-character tokenizer. -/
def demoSents : List String :=
  [String.mk (List.replicate 250 'a'), String.mk (List.replicate 250 'b'),
   String.mk (List.replicate 250 'c')]

/-- The chunk of `demoSents` that is seeded with 40 overlap characters and
then receives a 250-token sentence. -/
def demoOverflowChunk : Chunk :=
  { seed := some (String.mk (List.replicate 40 'a')),
    sents := [String.mk (List.replicate 250 'b')] }

/-- A string of 129 characters over a two-letter alphabet, one per bit of
the argument; used for the MD5 pigeonhole argument. -/
def bitString (v : Fin 129 → Bool) : String :=
  String.mk (List.ofFn (fun i => if v i then 'a' else 'b'))

/-- The `i`-th MD5 digest byte of `s`, as an element of `Fin 256`. -/
def md5Byte (s : String) (i : Fin 16) : Fin 256 :=
  ⟨(md5bytes s).getD i 0 % 256, Nat.mod_lt _ (by norm_num)⟩

/-! # Verification -/

/-- Preservation of an invariant along a left fold. -/
theorem foldl_inv {σ α : Type} (P : σ → Prop) (step : σ → α → σ)
    (hstep : ∀ s a, P s → P (step s a)) :
    ∀ (l : List α) (s : σ), P s → P (l.foldl step s)
  | [], _, hs => hs
  | a :: l, s, hs => foldl_inv P step hstep l (step s a) (hstep s a hs)

/-- `chunkStep` preserves the chunking invariant. -/
theorem chunkStep_inv (encLen : String → Nat) (maxTokens overlap : Nat)
    (st : CState) (sent : String) (h : chunkInv encLen maxTokens st) :
    chunkInv encLen maxTokens (chunkStep encLen maxTokens overlap st sent) := by
  obtain ⟨h1, h2, h3, h4⟩ := h
  unfold chunkStep
  by_cases hsk : encLen sent > maxTokens
  · simp only [if_pos hsk]
    exact ⟨h1, h2, h3, h4⟩
  · have hfit : encLen sent ≤ maxTokens := Nat.not_lt.mp hsk
    simp only [if_neg hsk]
    by_cases hov : st.tokens + encLen sent > maxTokens
    · simp only [if_pos hov]
      refine ⟨by simp [seedTok, sentsTok], by simpa [sentsTok] using hfit, ?_, ?_⟩
      · intro s hs
        simp only [List.mem_singleton] at hs
        subst hs
        exact hfit
      · intro c hc
        rcases List.mem_append.mp hc with hc | hc
        · exact h4 c hc
        · rcases List.mem_singleton.mp hc with rfl
          exact ⟨h2, h3⟩
    · simp only [if_neg hov]
      have hov' : st.tokens + encLen sent ≤ maxTokens := Nat.not_lt.mp hov
      refine ⟨?_, ?_, ?_, h4⟩
      · simp only [seedTok, sentsTok, List.map_append, List.sum_append,
          List.map_cons, List.map_nil, List.sum_cons, List.sum_nil]
        simp only [seedTok, sentsTok] at h1
        omega
      · simp only [sentsTok, List.map_append, List.sum_append, List.map_cons,
          List.map_nil, List.sum_cons, List.sum_nil]
        simp only [seedTok, sentsTok] at h1
        omega
      · intro s hs
        rcases List.mem_append.mp hs with hs | hs
        · exact h3 s hs
        · rcases List.mem_singleton.mp hs with rfl
          exact hfit

/-- Every chunk produced by the `chunk_text` loop has accumulated sentence
content of at most `maxTokens` tokens, and each of its accumulated sentences
individually fits in `maxTokens`. -/
theorem chunkRecords_inv (encLen : String → Nat) (sentences : List String)
    (maxTokens overlap : Nat) :
    ∀ c ∈ chunkRecords encLen sentences maxTokens overlap,
      sentsTok encLen c ≤ maxTokens ∧ ∀ s ∈ c.sents, encLen s ≤ maxTokens := by
  intro c hc
  unfold chunkRecords at hc
  have hinv := foldl_inv (chunkInv encLen maxTokens)
    (chunkStep encLen maxTokens overlap)
    (fun s a hp => chunkStep_inv encLen maxTokens overlap s a hp) sentences
    { chunks := [], cur := { seed := none, sents := [] }, tokens := 0 }
    ⟨by simp [seedTok, sentsTok], by simp [sentsTok], by simp, by simp⟩
  obtain ⟨_, h2, h3, h4⟩ := hinv
  by_cases hemp :
      (sentences.foldl (chunkStep encLen maxTokens overlap)
        { chunks := [], cur := { seed := none, sents := [] },
          tokens := 0 }).cur.current.isEmpty
  · rw [if_pos hemp] at hc
    exact h4 c hc
  · rw [if_neg hemp] at hc
    rcases List.mem_append.mp hc with hc | hc
    · exact h4 c hc
    · rcases List.mem_singleton.mp hc with rfl
      exact ⟨h2, h3⟩

/-- C4: in every chunking run of `chunk_text` with `max_tokens = 256`, every
emitted chunk's accumulated sentence content — the sentences appended into
it, measured per sentence by the configured tokenizer — totals at most 256
tokens; the overlap seed carried from the previous chunk is measured
separately (in `seedTok`, not counted here). -/
theorem chunk_content_within_256 (encLen : String → Nat)
    (sentences : List String) (overlap : Nat) (c : Chunk)
    (hc : c ∈ chunkRecords encLen sentences 256 overlap) :
    sentsTok encLen c ≤ 256 :=
  (chunkRecords_inv encLen sentences 256 overlap c hc).1

/-- Witness for C4 at a concrete run. -/
theorem chunk_content_within_256_witness :
    { seed := none, sents := ["hello"] } ∈
        chunkRecords String.length ["hello"] 256 40 ∧
      sentsTok String.length { seed := none, sents := ["hello"] } ≤ 256 :=
  ⟨by decide, chunk_content_within_256 String.length ["hello"] 40 _ (by decide)⟩

/-- C5: a sentence whose token length under the configured tokenizer exceeds
`max_tokens` is excluded from every chunk emitted by the `chunk_text` loop:
it is never among the accumulated sentences of any chunk. -/
theorem oversized_sentence_excluded (encLen : String → Nat)
    (sentences : List String) (maxTokens overlap : Nat) (s : String)
    (hs : maxTokens < encLen s) (c : Chunk)
    (hc : c ∈ chunkRecords encLen sentences maxTokens overlap) :
    s ∉ c.sents := fun hmem =>
  absurd ((chunkRecords_inv encLen sentences maxTokens overlap c hc).2 s hmem)
    (Nat.not_le.mpr hs)

/-- Witness for C5 at a concrete run. -/
theorem oversized_sentence_excluded_witness :
    3 < String.length "abcde" ∧
      { seed := none, sents := ["ab"] } ∈
        chunkRecords String.length ["ab", "abcde"] 3 2 ∧
      "abcde" ∉ (Chunk.sents { seed := none, sents := ["ab"] }) :=
  ⟨by decide, by decide,
    oversized_sentence_excluded String.length ["ab", "abcde"] 3 2 "abcde"
      (by decide) _ (by decide)⟩

set_option maxRecDepth 40000 in
/-- C10: the total token count of an emitted chunk *including* its overlap
seed is not bounded by `max_tokens`: with a one-token-per-character
tokenizer and three 250-character sentences, the chunk emitted after the
first overlap reseed carries 40 seed tokens plus a 250-token sentence, 290
tokens in all — the first sentence appended after a reseed is added without
re-checking the bound. -/
theorem overlap_seed_overflow :
    demoOverflowChunk ∈ chunkRecords String.length demoSents 256 40 ∧
      256 < seedTok String.length demoOverflowChunk +
        sentsTok String.length demoOverflowChunk :=
  ⟨by decide, by decide⟩

/-- C3: `generate_structured` never raises: whenever the body of its `try`
block ends in a raised exception — a failing provider call, or the
`NotImplementedError` of the unsupported anthropic backend — the operation
returns the schema's empty construction instead of propagating; the
anthropic case always does so. -/
theorem generate_structured_never_raises {α : Type} (p : Provider)
    (providerCall : Provider → Except String α) (emptyConstruct : α) :
    (∀ msg, structuredBody p providerCall = Except.error msg →
      generate_structured p providerCall emptyConstruct = emptyConstruct) ∧
    (p = Provider.anthropic →
      generate_structured p providerCall emptyConstruct = emptyConstruct) := by
  constructor
  · intro msg hmsg
    unfold generate_structured
    rw [hmsg]
  · intro hp
    subst hp
    unfold generate_structured structuredBody
    rfl

/-- Witness for C3: the anthropic backend with a `Response` schema returns
the empty `Response`. -/
theorem generate_structured_never_raises_witness :
    generate_structured Provider.anthropic
        (fun _ => (Except.error "boom" : Except String Response))
        Response.model_construct = Response.model_construct :=
  (generate_structured_never_raises Provider.anthropic
    (fun _ => Except.error "boom") Response.model_construct).2 rfl

/-- C7: when `embed_and_upsert` performs its upsert, every text handed to
the encoder is the chunk prefixed with `"passage: "` exactly when the model
name contains `"e5"` case-insensitively (otherwise unprefixed), while the
texts stored in the collection's documents field are always the original,
unprefixed chunks. -/
theorem embed_and_upsert_e5_prefix (chunks : List String)
    (model_name source_filename : String) (call : UpsertCall)
    (h : embed_and_upsert chunks model_name source_filename = some call) :
    (containsSub (toLowerStr model_name).data "e5".data = true →
      call.embedTexts = chunks.map (fun c => "passage: " ++ c)) ∧
    (containsSub (toLowerStr model_name).data "e5".data = false →
      call.embedTexts = chunks) ∧
    call.documents = chunks := by
  unfold embed_and_upsert at h
  by_cases hemp : chunks.isEmpty
  · rw [if_pos hemp] at h
    exact absurd h (by simp)
  · rw [if_neg hemp] at h
    injection h with h
    subst h
    refine ⟨fun he5 => ?_, fun he5 => ?_, rfl⟩
    · simp only [he5, if_true]
    · simp only [he5, Bool.false_eq_true, if_false]
      simp

/-- Witness for C7 at a concrete E5 model name. -/
theorem embed_and_upsert_e5_prefix_witness :
    ∃ call, embed_and_upsert ["c1"] "intfloat/E5-base" "f.pdf" = some call ∧
      call.embedTexts = ["c1"].map (fun c => "passage: " ++ c) ∧
      call.documents = ["c1"] := by
  have h : embed_and_upsert ["c1"] "intfloat/E5-base" "f.pdf" =
      some { ids := ["f.pdf_0"], embedTexts := ["passage: c1"],
             documents := ["c1"], metadatas := [("dataset", "f.pdf")] } := by
    decide
  have h2 := embed_and_upsert_e5_prefix ["c1"] "intfloat/E5-base" "f.pdf" _ h
  exact ⟨_, h, h2.1 (by decide), h2.2.2⟩

/-- C8: constructing the LLM client with a provider name matching none of
the four known backends fails with the invalid-configuration error
(`ValueError("Unknown provider: ...")`) at construction, before any client
handle is built. -/
theorem unknown_provider_invalid_configuration (provider : String)
    (libs : ProviderLibs) (h : toLowerStr provider ∉ knownProviders) :
    init_client provider libs =
      Except.error (InitError.invalidConfiguration
        ("Unknown provider: " ++ toLowerStr provider)) := by
  unfold knownProviders at h
  simp only [List.mem_cons, List.mem_singleton, not_or] at h
  obtain ⟨h1, h2, h3, h4⟩ := h
  unfold init_client
  rw [if_neg (by simpa using h1), if_neg (by simpa using h2),
    if_neg (by simpa using h3), if_neg (by simpa using h4)]

/-- Witness for C8: the provider name "mistral". -/
theorem unknown_provider_invalid_configuration_witness :
    init_client "mistral" ⟨true, true, true, true⟩ =
      Except.error (InitError.invalidConfiguration
        ("Unknown provider: " ++ toLowerStr "mistral")) :=
  unknown_provider_invalid_configuration "mistral" ⟨true, true, true, true⟩
    (by decide)

/-- C9: on the no-schema path, `StudentGenerator.generate` returns exactly
the string "Error: The LLM returned no response." when the underlying
free-text call yields no usable response (`None`), and otherwise returns
the generated text unchanged. -/
theorem student_generate_no_response (genText : String → Option String)
    (query context : String) :
    (genText (studentPrompt query context) = none →
      student_generate_text genText query context =
        "Error: The LLM returned no response.") ∧
    (∀ t, genText (studentPrompt query context) = some t →
      student_generate_text genText query context = t) := by
  constructor
  · intro hnone
    unfold student_generate_text
    rw [hnone]
  · intro t ht
    unfold student_generate_text
    rw [ht]

/-- Witness for C9: a client that yields no response. -/
theorem student_generate_no_response_witness :
    student_generate_text (fun _ => none) "q" "ctx" =
      "Error: The LLM returned no response." :=
  (student_generate_no_response (fun _ => none) "q" "ctx").1 rfl

/-- C1 (counterexample): an HTML file whose read raises — e.g. a file with
non-UTF-8 bytes, hit by the recursive walk — makes the extraction failure
propagate out of `run_ingestion`, aborting the whole run: the per-file
failure is *not* swallowed. -/
theorem run_ingestion_html_error_propagates :
    run_ingestion (fun _ => 0) (fun _ => [])
      [{ name := "page.html", kind := FileKind.html,
          data := FileData.unreadable }] 256 40 =
      Except.error "UnicodeDecodeError" := rfl

/-- The per-file pipeline yields no chunks on empty extracted text (the
sentence splitter returns no sentences on the empty string, as
`nltk.sent_tokenize` does). -/
theorem pipelineChunks_empty (encLen : String → Nat)
    (sentTok : String → List String) (chunkSize overlap : Nat)
    (hsent : sentTok "" = []) :
    pipelineChunks encLen sentTok chunkSize overlap "" = [] := by
  unfold pipelineChunks chunk_text
  rw [show filter_noise (clean_text "") = "" from rfl, hsent]
  rfl

/-- The ingestion loop succeeds and visits every file whenever no HTML file
is unreadable, and every missing file and every unreadable PDF contributes
zero chunks while ingestion continues. -/
theorem ingestLoop_swallows (encLen : String → Nat)
    (sentTok : String → List String) (chunkSize overlap : Nat)
    (hsent : sentTok "" = []) :
    ∀ files : List SrcFile,
      (∀ f ∈ files, f.kind = FileKind.html → f.data ≠ FileData.unreadable) →
      ∃ out, ingestLoop encLen sentTok chunkSize overlap files = Except.ok out ∧
        ∀ f ∈ files, f.kind ≠ FileKind.other →
          (f.data = FileData.missing ∨
            (f.kind = FileKind.pdf ∧ f.data = FileData.unreadable)) →
          (f.name, ([] : List String)) ∈ out := by
  intro files
  induction files with
  | nil => exact fun _ => ⟨[], rfl, by simp⟩
  | cons f rest ih =>
    intro hhtml
    obtain ⟨out, hout, hmem⟩ :=
      ih (fun g hg => hhtml g (List.mem_cons_of_mem f hg))
    obtain ⟨nm, kd, dt⟩ := f
    cases kd with
    | other =>
      refine ⟨out, by simpa [ingestLoop] using hout, ?_⟩
      intro g hg hko hcond
      rcases List.mem_cons.mp hg with rfl | hg
      · exact absurd rfl hko
      · exact hmem g hg hko hcond
    | html =>
      cases dt with
      | missing =>
        refine ⟨(nm, []) :: out, ?_, ?_⟩
        · simp only [ingestLoop, extract_text_from_html, hout, Except.map]
          rw [pipelineChunks_empty encLen sentTok chunkSize overlap hsent]
        · intro g hg hko hcond
          rcases List.mem_cons.mp hg with rfl | hg
          · exact List.mem_cons_self _ _
          · exact List.mem_cons_of_mem _ (hmem g hg hko hcond)
      | unreadable =>
        exact absurd rfl
          (hhtml _ (List.mem_cons_self _ _) rfl)
      | content t =>
        refine ⟨(nm, pipelineChunks encLen sentTok chunkSize overlap t) :: out,
          by simp [ingestLoop, extract_text_from_html, hout, Except.map], ?_⟩
        intro g hg hko hcond
        rcases List.mem_cons.mp hg with rfl | hg
        · rcases hcond with hcond | ⟨_, hcond⟩ <;> exact absurd hcond (by simp)
        · exact List.mem_cons_of_mem _ (hmem g hg hko hcond)
    | pdf =>
      cases dt with
      | missing =>
        refine ⟨(nm, []) :: out, ?_, ?_⟩
        · simp only [ingestLoop, extract_text_from_pdf, hout, Except.map]
          rw [pipelineChunks_empty encLen sentTok chunkSize overlap hsent]
        · intro g hg hko hcond
          rcases List.mem_cons.mp hg with rfl | hg
          · exact List.mem_cons_self _ _
          · exact List.mem_cons_of_mem _ (hmem g hg hko hcond)
      | unreadable =>
        refine ⟨(nm, []) :: out, ?_, ?_⟩
        · simp only [ingestLoop, extract_text_from_pdf, hout, Except.map]
          rw [pipelineChunks_empty encLen sentTok chunkSize overlap hsent]
        · intro g hg hko hcond
          rcases List.mem_cons.mp hg with rfl | hg
          · exact List.mem_cons_self _ _
          · exact List.mem_cons_of_mem _ (hmem g hg hko hcond)
      | content t =>
        refine ⟨(nm, pipelineChunks encLen sentTok chunkSize overlap t) :: out,
          by simp [ingestLoop, extract_text_from_pdf, hout, Except.map], ?_⟩
        intro g hg hko hcond
        rcases List.mem_cons.mp hg with rfl | hg
        · rcases hcond with hcond | ⟨_, hcond⟩ <;> exact absurd hcond (by simp)
        · exact List.mem_cons_of_mem _ (hmem g hg hko hcond)

/-- C1 (amended): missing files yield empty text and zero chunks for both
HTML and PDF, and PDF extraction errors are swallowed, also yielding zero
chunks; in all those cases ingestion continues with the remaining files and
the run completes.  (An HTML open/read error, by contrast, propagates —
see the counterexample.) -/
theorem run_ingestion_swallows_missing_and_pdf_errors
    (encLen : String → Nat) (sentTok : String → List String)
    (files : List SrcFile) (chunkSize overlap : Nat)
    (hhtml : ∀ f ∈ files, f.kind = FileKind.html → f.data ≠ FileData.unreadable)
    (hsent : sentTok "" = []) :
    ∃ out, run_ingestion encLen sentTok files chunkSize overlap = Except.ok out ∧
      ∀ f ∈ files, f.kind ≠ FileKind.other →
        (f.data = FileData.missing ∨
          (f.kind = FileKind.pdf ∧ f.data = FileData.unreadable)) →
        (f.name, ([] : List String)) ∈ out :=
  ingestLoop_swallows encLen sentTok chunkSize overlap hsent files hhtml

/-- Witness for C1 (amended): a missing HTML file and an unreadable PDF are
both swallowed with zero chunks. -/
theorem run_ingestion_swallows_witness :
    ∃ out, run_ingestion (fun _ => 0) (fun _ => [])
        ([⟨"a.html", FileKind.html, FileData.missing⟩,
          ⟨"b.pdf", FileKind.pdf, FileData.unreadable⟩] : List SrcFile)
        256 40 = Except.ok out ∧
      ∀ f ∈ ([⟨"a.html", FileKind.html, FileData.missing⟩,
              ⟨"b.pdf", FileKind.pdf, FileData.unreadable⟩] : List SrcFile),
        f.kind ≠ FileKind.other →
        (f.data = FileData.missing ∨
          (f.kind = FileKind.pdf ∧ f.data = FileData.unreadable)) →
        (f.name, ([] : List String)) ∈ out :=
  run_ingestion_swallows_missing_and_pdf_errors (fun _ => 0) (fun _ => []) _
    256 40 (by decide) rfl

/-! ### `clean_text` idempotence analysis (C2) -/

/-- `noRun` restricted to the tail. -/
theorem noRun_tail (p : Char → Bool) (c : Char) (t : List Char)
    (h : noRun p (c :: t) = true) : noRun p t = true := by
  cases t with
  | nil => rfl
  | cons d ds =>
    simp only [noRun, Bool.and_eq_true] at h
    exact h.2

/-- Unfolding `noRun` at a cons cell via the head of the tail. -/
theorem noRun_cons_iff (p : Char → Bool) (c : Char) (X : List Char) :
    noRun p (c :: X) = true ↔
      (∀ h, X.head? = some h → (p c && p h) = false) ∧ noRun p X = true := by
  cases X with
  | nil => simp [noRun]
  | cons d ds =>
    simp only [noRun, List.head?_cons, Bool.and_eq_true, Bool.not_eq_true']
    constructor
    · rintro ⟨h1, h2⟩
      refine ⟨fun h hh => ?_, h2⟩
      injection hh with hh
      subst hh
      exact h1
    · rintro ⟨h1, h2⟩
      exact ⟨h1 d rfl, h2⟩

/-- After a run has been entered, the next emitted character fails `p`. -/
theorem squash_true_head (p : Char → Bool) (r : Char) :
    ∀ (u : List Char) (h : Char),
      (squash p r true u).head? = some h → p h = false := by
  intro u
  induction u with
  | nil =>
    intro h hh
    simp [squash] at hh
  | cons c cs ih =>
    intro h hh
    by_cases hc : p c = true
    · rw [show squash p r true (c :: cs) = squash p r true cs from by
        simp [squash, hc]] at hh
      exact ih h hh
    · have hc' : p c = false := by simpa using hc
      rw [show squash p r true (c :: cs) = c :: squash p r false cs from by
        simp [squash, hc]] at hh
      simp only [List.head?_cons] at hh
      injection hh with hh
      subst hh
      exact hc'

/-- The output of `squash p r` has no run of two characters satisfying `p`. -/
theorem squash_noRun (p : Char → Bool) (r : Char) :
    ∀ (u : List Char) (b : Bool), noRun p (squash p r b u) = true := by
  intro u
  induction u with
  | nil => intro b; rfl
  | cons c cs ih =>
    intro b
    by_cases hc : p c = true
    · cases b with
      | true =>
        rw [show squash p r true (c :: cs) = squash p r true cs from by
          simp [squash, hc]]
        exact ih true
      | false =>
        rw [show squash p r false (c :: cs) = r :: squash p r true cs from by
          simp [squash, hc], noRun_cons_iff]
        refine ⟨fun h hh => ?_, ih true⟩
        rw [squash_true_head p r cs h hh]
        exact Bool.and_false _
    · rw [show squash p r b (c :: cs) = c :: squash p r false cs from by
        simp [squash, hc], noRun_cons_iff]
      have hc' : p c = false := by simpa using hc
      refine ⟨fun h _ => ?_, ih false⟩
      rw [hc']
      exact Bool.false_and _

/-- Every character emitted by `squash p r` is the replacement `r` or an
input character failing `p`. -/
theorem squash_mem (p : Char → Bool) (r : Char) :
    ∀ (u : List Char) (b : Bool) (c : Char), c ∈ squash p r b u →
      c = r ∨ (c ∈ u ∧ p c = false) := by
  intro u
  induction u with
  | nil =>
    intro b c hc
    simp [squash] at hc
  | cons d ds ih =>
    intro b c hc
    by_cases hd : p d = true
    · cases b with
      | true =>
        rw [show squash p r true (d :: ds) = squash p r true ds from by
          simp [squash, hd]] at hc
        rcases ih true c hc with h | ⟨h1, h2⟩
        · exact Or.inl h
        · exact Or.inr ⟨List.mem_cons_of_mem _ h1, h2⟩
      | false =>
        rw [show squash p r false (d :: ds) = r :: squash p r true ds from by
          simp [squash, hd]] at hc
        rcases List.mem_cons.mp hc with rfl | hc
        · exact Or.inl rfl
        · rcases ih true c hc with h | ⟨h1, h2⟩
          · exact Or.inl h
          · exact Or.inr ⟨List.mem_cons_of_mem _ h1, h2⟩
    · have hd' : p d = false := by simpa using hd
      rw [show squash p r b (d :: ds) = d :: squash p r false ds from by
        simp [squash, hd]] at hc
      rcases List.mem_cons.mp hc with rfl | hc
      · exact Or.inr ⟨List.mem_cons_self _ _, hd'⟩
      · rcases ih false c hc with h | ⟨h1, h2⟩
        · exact Or.inl h
        · exact Or.inr ⟨List.mem_cons_of_mem _ h1, h2⟩

/-- `squash p r` is the identity on lists with no `p`-run, whose `p`-characters
all equal `r` (and, inside a run, whose head fails `p`). -/
theorem squash_id (p : Char → Bool) (r : Char) :
    ∀ (u : List Char) (b : Bool), noRun p u = true →
      (∀ c ∈ u, p c = true → c = r) →
      (b = true → ∀ h, u.head? = some h → p h = false) →
      squash p r b u = u := by
  intro u
  induction u with
  | nil => intro b _ _ _; rfl
  | cons c cs ih =>
    intro b hnr hch hhd
    by_cases hc : p c = true
    · cases b with
      | true =>
        have := hhd rfl c rfl
        rw [hc] at this
        exact absurd this (by decide)
      | false =>
        have hcr : c = r := hch c (List.mem_cons_self _ _) hc
        rw [show squash p r false (c :: cs) = r :: squash p r true cs from by
          simp [squash, hc], hcr]
        congr 1
        refine ih true (noRun_tail p c cs hnr)
          (fun x hx => hch x (List.mem_cons_of_mem _ hx)) ?_
        intro _ h hh
        have h2 := ((noRun_cons_iff p c cs).mp hnr).1 h hh
        rw [hc] at h2
        simpa using h2
    · rw [show squash p r b (c :: cs) = c :: squash p r false cs from by
        simp [squash, hc]]
      congr 1
      exact ih false (noRun_tail p c cs hnr)
        (fun x hx => hch x (List.mem_cons_of_mem _ hx))
        (fun hfalse => absurd hfalse (by decide))

/-- `squash p r` preserves freedom from `q`-runs whenever the replacement
character fails `q`. -/
theorem squash_pres_noRun (p q : Char → Bool) (r : Char) (hr : q r = false) :
    ∀ (u : List Char) (b : Bool), noRun q u = true →
      noRun q (squash p r b u) = true := by
  intro u
  induction u with
  | nil => intro b _; rfl
  | cons c cs ih =>
    intro b hq
    by_cases hc : p c = true
    · cases b with
      | true =>
        rw [show squash p r true (c :: cs) = squash p r true cs from by
          simp [squash, hc]]
        exact ih true (noRun_tail q c cs hq)
      | false =>
        rw [show squash p r false (c :: cs) = r :: squash p r true cs from by
          simp [squash, hc], noRun_cons_iff]
        refine ⟨fun h _ => ?_, ih true (noRun_tail q c cs hq)⟩
        rw [hr]
        exact Bool.false_and _
    · rw [show squash p r b (c :: cs) = c :: squash p r false cs from by
        simp [squash, hc], noRun_cons_iff]
      refine ⟨?_, ih false (noRun_tail q c cs hq)⟩
      intro h hh
      cases cs with
      | nil => simp [squash] at hh
      | cons d ds =>
        by_cases hd : p d = true
        · rw [show squash p r false (d :: ds) = r :: squash p r true ds from by
            simp [squash, hd]] at hh
          simp only [List.head?_cons] at hh
          injection hh with hh
          subst hh
          rw [hr]
          exact Bool.and_false _
        · rw [show squash p r false (d :: ds) = d :: squash p r false ds from by
            simp [squash, hd]] at hh
          simp only [List.head?_cons] at hh
          injection hh with hh
          subst hh
          exact ((noRun_cons_iff q c (d :: ds)).mp hq).1 d rfl

/-- The head of a `dropWhile` output fails the predicate. -/
theorem dropWhile_head (p : Char → Bool) :
    ∀ (u : List Char) (h : Char), (u.dropWhile p).head? = some h →
      p h = false := by
  intro u
  induction u with
  | nil =>
    intro h hh
    simp [List.dropWhile] at hh
  | cons c cs ih =>
    intro h hh
    rw [List.dropWhile_cons] at hh
    by_cases hc : p c = true
    · rw [if_pos hc] at hh
      exact ih h hh
    · rw [if_neg hc] at hh
      simp only [List.head?_cons] at hh
      injection hh with hh
      subst hh
      simpa using hc

/-- `dropWhile` is the identity when the head already fails the predicate. -/
theorem dropWhile_id (p : Char → Bool) (u : List Char)
    (h : ∀ c, u.head? = some c → p c = false) : u.dropWhile p = u := by
  cases u with
  | nil => rfl
  | cons c cs =>
    rw [List.dropWhile_cons, if_neg]
    simp [h c rfl]

/-- Splitting a list as its right-stripped part plus the stripped suffix. -/
theorem rstrip_split (p : Char → Bool) (v : List Char) :
    v = (v.reverse.dropWhile p).reverse ++ (v.reverse.takeWhile p).reverse := by
  rw [← List.reverse_append, List.takeWhile_append_dropWhile,
    List.reverse_reverse]

/-- The head of a stripped list fails `isPyWs`. -/
theorem stripL_head (u : List Char) :
    ∀ h, (stripL u).head? = some h → isPyWs h = false := by
  intro h hh
  unfold stripL at hh
  set v := u.dropWhile isPyWs with hv
  have hsplit := rstrip_split isPyWs v
  have hvh : v.head? = some h := by
    rw [hsplit, List.head?_append, hh]
    rfl
  exact dropWhile_head isPyWs u h (hv ▸ hvh)

/-- The last character of a stripped list fails `isPyWs`. -/
theorem stripL_last (u : List Char) :
    ∀ h, (stripL u).reverse.head? = some h → isPyWs h = false := by
  intro h hh
  unfold stripL at hh
  rw [List.reverse_reverse] at hh
  exact dropWhile_head isPyWs _ h hh

/-- `stripL` is the identity on lists already stripped at both ends. -/
theorem stripL_id (u : List Char)
    (h1 : ∀ c, u.head? = some c → isPyWs c = false)
    (h2 : ∀ c, u.reverse.head? = some c → isPyWs c = false) :
    stripL u = u := by
  unfold stripL
  rw [dropWhile_id isPyWs u h1, dropWhile_id isPyWs u.reverse h2,
    List.reverse_reverse]

/-- Characters of a stripped list come from the original list. -/
theorem stripL_subset (u : List Char) : ∀ c ∈ stripL u, c ∈ u := by
  intro c hc
  unfold stripL at hc
  rw [List.mem_reverse] at hc
  have h1 := (List.dropWhile_sublist isPyWs).subset hc
  rw [List.mem_reverse] at h1
  exact (List.dropWhile_sublist isPyWs).subset h1

/-- `dropWhile` preserves run-freedom. -/
theorem noRun_dropWhile (p q : Char → Bool) :
    ∀ u : List Char, noRun p u = true → noRun p (u.dropWhile q) = true := by
  intro u
  induction u with
  | nil => intro _; rfl
  | cons c cs ih =>
    intro h
    rw [List.dropWhile_cons]
    by_cases hc : q c = true
    · rw [if_pos hc]
      exact ih (noRun_tail p c cs h)
    · rw [if_neg hc]
      exact h

/-- Run-freedom restricts to a left factor. -/
theorem noRun_append_left (p : Char → Bool) :
    ∀ (u v : List Char), noRun p (u ++ v) = true → noRun p u = true := by
  intro u
  induction u with
  | nil => intro v _; rfl
  | cons c cs ih =>
    intro v h
    rw [List.cons_append, noRun_cons_iff] at h
    rw [noRun_cons_iff]
    obtain ⟨hh, ht⟩ := h
    refine ⟨fun x hx => ?_, ih v ht⟩
    apply hh
    rw [List.head?_append, hx]
    rfl

/-- `stripL` preserves run-freedom. -/
theorem noRun_stripL (p : Char → Bool) (u : List Char)
    (h : noRun p u = true) : noRun p (stripL u) = true := by
  unfold stripL
  have h1 := noRun_dropWhile p isPyWs u h
  set v := u.dropWhile isPyWs with hv
  exact noRun_append_left p _ _ ((rstrip_split isPyWs v) ▸ h1)

/-- On form-feed-free input, the `re.sub(r'\f', '', ·)` stage of
`clean_text` is the identity. -/
theorem cleanL_eq_of_no_ff (u : List Char) (h : '\x0c' ∉ u) :
    cleanL u = stripL (squash isSpTab ' ' false (squash isNl '\n' false u)) := by
  unfold cleanL
  congr 1
  apply List.filter_eq_self.mpr
  intro c hc
  rcases squash_mem isSpTab ' ' _ false c hc with rfl | ⟨hc2, _⟩
  · decide
  · rcases squash_mem isNl '\n' u false c hc2 with rfl | ⟨hc3, _⟩
    · decide
    · simp only [Bool.not_eq_true', beq_eq_false_iff_ne]
      exact fun hcc => h (hcc ▸ hc3)

/-- On form-feed-free input, the output of `clean_text` is in normal form:
no tab or form feed, no newline run, no space/tab run, and stripped at both
ends. -/
theorem cleanL_nf (u : List Char) (h : '\x0c' ∉ u) :
    (∀ c ∈ cleanL u, c ≠ '\t' ∧ c ≠ '\x0c') ∧
    noRun isNl (cleanL u) = true ∧
    noRun isSpTab (cleanL u) = true ∧
    (∀ c, (cleanL u).head? = some c → isPyWs c = false) ∧
    (∀ c, (cleanL u).reverse.head? = some c → isPyWs c = false) := by
  rw [cleanL_eq_of_no_ff u h]
  refine ⟨?_, ?_, ?_, stripL_head _, stripL_last _⟩
  · intro c hc
    rcases squash_mem isSpTab ' ' _ false c (stripL_subset _ c hc)
      with rfl | ⟨hc2, hsp⟩
    · exact ⟨by decide, by decide⟩
    · refine ⟨fun hcc => ?_, ?_⟩
      · subst hcc
        simp [isSpTab] at hsp
      · rcases squash_mem isNl '\n' u false c hc2 with rfl | ⟨hc3, _⟩
        · decide
        · exact fun hcc => h (hcc ▸ hc3)
  · exact noRun_stripL isNl _
      (squash_pres_noRun isSpTab isNl ' ' (by decide) _ false
        (squash_noRun isNl '\n' u false))
  · exact noRun_stripL isSpTab _ (squash_noRun isSpTab ' ' _ false)

/-- `clean_text` (on character lists) is the identity on normal forms. -/
theorem cleanL_id_of_nf (t : List Char)
    (htb : ∀ c ∈ t, c ≠ '\t' ∧ c ≠ '\x0c')
    (hnl : noRun isNl t = true)
    (hsp : noRun isSpTab t = true)
    (hhd : ∀ c, t.head? = some c → isPyWs c = false)
    (hlt : ∀ c, t.reverse.head? = some c → isPyWs c = false) :
    cleanL t = t := by
  have e1 : squash isNl '\n' false t = t :=
    squash_id isNl '\n' t false hnl
      (fun c _ hc => eq_of_beq hc)
      (fun hfalse => absurd hfalse (by decide))
  have e2 : squash isSpTab ' ' false t = t :=
    squash_id isSpTab ' ' t false hsp
      (fun c hcmem hc => by
        simp only [isSpTab, Bool.or_eq_true] at hc
        rcases hc with h' | h'
        · exact eq_of_beq h'
        · exact absurd (eq_of_beq h') (htb c hcmem).1)
      (fun hfalse => absurd hfalse (by decide))
  have e3 : t.filter (fun c => !(c == '\x0c')) = t :=
    List.filter_eq_self.mpr (fun c hcmem => by
      simp only [Bool.not_eq_true', beq_eq_false_iff_ne]
      exact (htb c hcmem).2)
  unfold cleanL
  rw [e1, e2, e3]
  exact stripL_id t hhd hlt

/-- C2 (counterexample): `clean_text` is not idempotent — on "a\n\x0c\nb"
the first pass deletes the form feed and leaves "a\n\nb", and the second
pass collapses the newly adjacent newlines. -/
theorem clean_text_not_idempotent :
    clean_text (clean_text "a\n\x0c\nb") ≠ clean_text "a\n\x0c\nb" := by
  decide

/-- C2 (amended): `clean_text` is idempotent on every input containing no
form-feed character: applying it twice yields the same result as applying
it once. -/
theorem clean_text_idempotent_no_ff (s : String) (h : '\x0c' ∉ s.data) :
    clean_text (clean_text s) = clean_text s := by
  have hnf := cleanL_nf s.data h
  have hid := cleanL_id_of_nf (cleanL s.data)
    hnf.1 hnf.2.1 hnf.2.2.1 hnf.2.2.2.1 hnf.2.2.2.2
  unfold clean_text
  exact congrArg String.mk hid

/-- Witness for C2 (amended) at a concrete form-feed-free input. -/
theorem clean_text_idempotent_no_ff_witness :
    '\x0c' ∉ ("  a\n\nb\t c " : String).data ∧
      clean_text (clean_text "  a\n\nb\t c ") = clean_text "  a\n\nb\t c " :=
  ⟨by decide, clean_text_idempotent_no_ff "  a\n\nb\t c " (by decide)⟩

/-! ### `_deduplicate_chunks` analysis (C6) -/

/-- The digest-keyed loop agrees with string-keyed first-occurrence
deduplication whenever MD5 is injective over the strings in scope. -/
theorem dedupGo_eq_spec (l : List String) : ∀ seenS : List String,
    (∀ a b : String, (a ∈ seenS ∨ a ∈ l) → (b ∈ seenS ∨ b ∈ l) →
      md5hex a = md5hex b → a = b) →
    dedupGo (seenS.map md5hex) l = dedupSpecGo seenS l := by
  induction l with
  | nil => intro seenS _; rfl
  | cons c cs ih =>
    intro seenS hinj
    have hscope : ∀ x : String, (x ∈ seenS ∨ x ∈ cs) → (x ∈ seenS ∨ x ∈ c :: cs) :=
      fun x hx => hx.imp id (List.mem_cons_of_mem c)
    unfold dedupGo dedupSpecGo
    by_cases hmem : c ∈ seenS
    · rw [if_pos (List.mem_map.mpr ⟨c, hmem, rfl⟩), if_pos hmem]
      exact ih seenS (fun a b ha hb => hinj a b (hscope a ha) (hscope b hb))
    · have hdig : md5hex c ∉ seenS.map md5hex := by
        intro hd
        obtain ⟨a, ha, hae⟩ := List.mem_map.mp hd
        exact hmem (hinj a c (Or.inl ha) (Or.inr (List.mem_cons_self c cs)) hae ▸ ha)
      rw [if_neg hdig, if_neg hmem]
      congr 1
      have hmap : md5hex c :: seenS.map md5hex = (c :: seenS).map md5hex := rfl
      rw [hmap]
      refine ih (c :: seenS) (fun a b ha hb => hinj a b ?_ ?_)
      · rcases ha with ha | ha
        · rcases List.mem_cons.mp ha with rfl | ha
          · exact Or.inr (List.mem_cons_self a cs)
          · exact Or.inl ha
        · exact Or.inr (List.mem_cons_of_mem c ha)
      · rcases hb with hb | hb
        · rcases List.mem_cons.mp hb with rfl | hb
          · exact Or.inr (List.mem_cons_self b cs)
          · exact Or.inl hb
        · exact Or.inr (List.mem_cons_of_mem c hb)

/-- C6 (amended): whenever the MD5 digests of the input strings are
pairwise collision-free — true of every practically-encountered list —
`_deduplicate_chunks` preserves first-seen order and returns each distinct
input string exactly once (it equals string-keyed first-occurrence
deduplication). -/
theorem deduplicate_chunks_eq_spec (chunks : List String)
    (h : ∀ a ∈ chunks, ∀ b ∈ chunks, md5hex a = md5hex b → a = b) :
    deduplicate_chunks chunks = dedupSpec chunks := by
  unfold deduplicate_chunks dedupSpec
  have := dedupGo_eq_spec chunks []
    (fun a b ha hb hab =>
      h a (ha.resolve_left (by simp)) b (hb.resolve_left (by simp)) hab)
  simpa using this

set_option maxRecDepth 400000 in
set_option maxHeartbeats 4000000 in
/-- Witness for C6 (amended): the claim's example, computed with the real
MD5: the digests of "A" and "B" do not collide, and the output keeps the
first occurrence of each. -/
theorem deduplicate_chunks_eq_spec_witness :
    deduplicate_chunks ["A", "B", "A"] = ["A", "B"] := by
  rw [deduplicate_chunks_eq_spec ["A", "B", "A"] (by decide)]
  decide

/-- The MD5 digest always consists of 16 bytes. -/
theorem md5bytes_length (s : String) : (md5bytes s).length = 16 := by
  simp [md5bytes, wordLE]

/-- Each little-endian word byte is below 256. -/
theorem wordLE_lt (x : Nat) : ∀ y ∈ wordLE x, y < 256 := by
  intro y hy
  simp only [wordLE, List.mem_cons, List.not_mem_nil, or_false] at hy
  rcases hy with rfl | rfl | rfl | rfl <;> omega

/-- Each MD5 digest byte is below 256. -/
theorem md5bytes_lt (s : String) : ∀ x ∈ md5bytes s, x < 256 := by
  intro x hx
  simp only [md5bytes, List.mem_append] at hx
  rcases hx with ((hx | hx) | hx) | hx <;> exact wordLE_lt _ x hx

/-- Two strings with equal digest-byte functions have equal digests. -/
theorem md5bytes_ext (s t : String)
    (h : ∀ i : Fin 16, md5Byte s i = md5Byte t i) :
    md5bytes s = md5bytes t := by
  apply List.ext_getElem
  · rw [md5bytes_length, md5bytes_length]
  · intro n h1 h2
    rw [md5bytes_length] at h1
    have hv : (md5bytes s).getD n 0 % 256 = (md5bytes t).getD n 0 % 256 :=
      congrArg Fin.val (h ⟨n, h1⟩)
    have hs' : n < (md5bytes s).length := by rw [md5bytes_length]; exact h1
    have ht' : n < (md5bytes t).length := by rw [md5bytes_length]; exact h1
    rw [List.getD_eq_getElem _ _ hs', List.getD_eq_getElem _ _ ht',
      Nat.mod_eq_of_lt (md5bytes_lt s _ (List.getElem_mem hs')),
      Nat.mod_eq_of_lt (md5bytes_lt t _ (List.getElem_mem ht'))] at hv
    exact hv

/-- The hex digest is determined by the digest bytes. -/
theorem md5hex_eq_of_bytes (s t : String) (h : md5bytes s = md5bytes t) :
    md5hex s = md5hex t := by
  unfold md5hex
  rw [h]

/-- `bitString` is injective. -/
theorem bitString_inj (v w : Fin 129 → Bool) (h : bitString v = bitString w) :
    v = w := by
  unfold bitString at h
  injection h with h
  rw [List.ofFn_inj] at h
  funext i
  have hi := congrFun h i
  cases hv : v i <;> cases hw : w i <;> simp [hv, hw] at hi ⊢

/-- MD5 has collisions: there are strictly more 129-character two-letter
strings than 16-byte digests, so two distinct strings share a digest. -/
theorem md5_collision_exists : ∃ a b : String, a ≠ b ∧ md5hex a = md5hex b := by
  have hcard : Fintype.card (Fin 16 → Fin 256) < Fintype.card (Fin 129 → Bool) := by
    rw [Fintype.card_fun, Fintype.card_fun]
    simp only [Fintype.card_fin, Fintype.card_bool]
    norm_num
  obtain ⟨v, w, hvw, heq⟩ :=
    Fintype.exists_ne_map_eq_of_card_lt
      (fun v : Fin 129 → Bool => md5Byte (bitString v)) hcard
  refine ⟨bitString v, bitString w, fun hc => hvw (bitString_inj v w hc), ?_⟩
  exact md5hex_eq_of_bytes _ _ (md5bytes_ext _ _ (fun i => congrFun heq i))

/-- C6 (counterexample): because deduplication keys on the MD5 digest, and
MD5 is not injective, there is a list of chunk strings for which some
distinct input string is missing from the output — the claim does not hold
of *every* list. -/
theorem dedup_can_drop_a_distinct_string :
    ∃ chunks : List String, ∃ s ∈ chunks, s ∉ deduplicate_chunks chunks := by
  obtain ⟨a, b, hne, hmd⟩ := md5_collision_exists
  refine ⟨[a, b], b, by simp, ?_⟩
  have hded : deduplicate_chunks [a, b] = [a] := by
    simp [deduplicate_chunks, dedupGo, hmd]
  rw [hded]
  simp only [List.mem_singleton]
  exact fun hc => hne hc.symm

end EnergySearch
